import Mathlib

/-!
# PSO-Rastrigin: verification of the swarm engine

A shallow embedding of `src/main.rs`: the Rastrigin fitness function, the
particle/swarm data model, swarm initialization (`init_swarm`) and the
per-sweep update loop (`run_pso`).  Machine floats (`f64`) are modelled as
real numbers; the random draws of the program (`rng.gen()`,
`rng.gen_range(..)`) are modelled as explicit inputs; the compile-time
constants (`C1`, `C2`, `W`, `LOWER_BOUND`, `UPPER_BOUND`, `PENALTY_FACTOR`)
become the fields of a `Config` record.  The reporting calls (`println!`,
`save_fitness_to_csv`) are side-effect-only and are omitted.
-/

namespace PSO

/-- The compile-time constants of `main.rs` (lines 7-12). -/
structure Config where
  c1 : ℝ
  c2 : ℝ
  w : ℝ
  lower_bound : ℝ
  upper_bound : ℝ
  penalty_factor : ℝ

/-- `struct Particle` (main.rs lines 14-19). -/
structure Particle where
  x : List ℝ
  vx : List ℝ
  pbest_x : List ℝ
  pbest : ℝ

instance : Inhabited Particle := ⟨⟨[], [], [], 0⟩⟩

/-- `struct Swarm` (main.rs lines 21-25). -/
structure Swarm where
  particles : List Particle
  gbest_x : List ℝ
  gbest : ℝ

/-- `fn rastrigin` (main.rs lines 88-95): a running sum accumulated over the
coordinates, then `10 * x.len() + sum`. -/
noncomputable def rastrigin (x : List ℝ) : ℝ :=
  10 * (x.length : ℝ) +
    x.foldl (fun sum t => sum + (t ^ 2 - 10 * Real.cos (2 * Real.pi * t))) 0

/-- The closed form the specification gives for the fitness contract:
`10*D + sum_i (x_i^2 - 10*cos(2*pi*x_i))`. -/
noncomputable def rastriginSpec (x : List ℝ) : ℝ :=
  10 * (x.length : ℝ) +
    (x.map (fun t => t ^ 2 - 10 * Real.cos (2 * Real.pi * t))).sum

/-- One dimension of the velocity/position update with boundary clamp
(main.rs lines 41-53).  Returns the new position component, the new velocity
component, and whether this component was clamped. -/
noncomputable def stepDim (cfg : Config) (r1 r2 x vx px gx : ℝ) : ℝ × ℝ × Bool :=
  let v := cfg.w * vx + cfg.c1 * r1 * (px - x) + cfg.c2 * r2 * (gx - x)
  let x2 := x + v
  if x2 < cfg.lower_bound then (cfg.lower_bound, 0, true)
  else if x2 > cfg.upper_bound then (cfg.upper_bound, 0, true)
  else (x2, v, false)

/-- Pair up the per-dimension data `(x[d], vx[d], pbest_x[d], gbest_x[d])`
accessed by the inner loop `for pos in 0..PARAMETERS` of `run_pso`. -/
def zip4 : List ℝ → List ℝ → List ℝ → List ℝ → List (ℝ × ℝ × ℝ × ℝ)
  | x :: xs, v :: vs, p :: ps, g :: gs => (x, v, p, g) :: zip4 xs vs ps gs
  | _, _, _, _ => []

/-- The inner dimension loop of `run_pso` (main.rs lines 40-54): new
positions, new velocities, and the accumulated `penalty` flag. -/
noncomputable def updateDims (cfg : Config) (r1 r2 : ℝ) :
    List (ℝ × ℝ × ℝ × ℝ) → List ℝ × List ℝ × Bool
  | [] => ([], [], false)
  | (x, vx, px, gx) :: rest =>
      let s := stepDim cfg r1 r2 x vx px gx
      let t := updateDims cfg r1 r2 rest
      (s.1 :: t.1, s.2.1 :: t.2.1, s.2.2 || t.2.2)

/-- The body of the per-particle loop of `run_pso` (main.rs lines 32-72):
update velocity and position with clamping, evaluate the (possibly
penalized) fitness, update the personal best and the global best.  Returns
the updated particle, the new `gbest_x` and the new `gbest`. -/
noncomputable def updateParticle (cfg : Config) (r1 r2 : ℝ) (gx : List ℝ) (g : ℝ)
    (p : Particle) : Particle × List ℝ × ℝ :=
  let res := updateDims cfg r1 r2 (zip4 p.x p.vx p.pbest_x gx)
  let raw := rastrigin res.1
  let fitness := if res.2.2 then raw + cfg.penalty_factor else raw
  ({ x := res.1
     vx := res.2.1
     pbest_x := if fitness < p.pbest then res.1 else p.pbest_x
     pbest := if fitness < p.pbest then fitness else p.pbest },
   if fitness < g then res.1 else gx,
   if fitness < g then fitness else g)

/-- One sweep over the particle list (`for i in 0..PARTICLES`, main.rs
lines 31-73), threading the global best left to right; `rand i` supplies the
two uniform draws `r1, r2` made for particle `i`. -/
noncomputable def sweepGo (cfg : Config) (rand : ℕ → ℝ × ℝ) :
    ℕ → List Particle → List ℝ → ℝ → List Particle × List ℝ × ℝ
  | _, [], gx, g => ([], gx, g)
  | i, p :: ps, gx, g =>
      let u := updateParticle cfg (rand i).1 (rand i).2 gx g p
      let rest := sweepGo cfg rand (i + 1) ps u.2.1 u.2.2
      (u.1 :: rest.1, rest.2.1, rest.2.2)

/-- One iteration of the outer loop of `run_pso` (one sweep). -/
noncomputable def sweep (cfg : Config) (rand : ℕ → ℝ × ℝ) (s : Swarm) : Swarm :=
  { particles := (sweepGo cfg rand 0 s.particles s.gbest_x s.gbest).1
    gbest_x := (sweepGo cfg rand 0 s.particles s.gbest_x s.gbest).2.1
    gbest := (sweepGo cfg rand 0 s.particles s.gbest_x s.gbest).2.2 }

/-- `fn run_pso` (main.rs lines 27-86): `ITERATIONS` sweeps; the random
stream supplies one `rand` function per sweep.  The `println!` and CSV
reporting are side-effect-only and omitted. -/
noncomputable def run_pso (cfg : Config) (rands : List (ℕ → ℝ × ℝ)) (s : Swarm) : Swarm :=
  rands.foldl (fun t r => sweep cfg r t) s

/-- Particle construction inside `init_swarm` (main.rs lines 127-132):
the drawn position and velocity vectors are the input; `pbest_x` is a copy
of the position and `pbest` its fitness. -/
noncomputable def initParticle (pr : List ℝ × List ℝ) : Particle :=
  { x := pr.1, vx := pr.2, pbest_x := pr.1, pbest := rastrigin pr.1 }

/-- `fn init_swarm` (main.rs lines 113-140).  The random draws are modelled
as the input list `inits` (one `(position, velocity)` pair per particle).
The source reads `particles[0]` for the global best, which panics on an
empty swarm; the embedding returns the `Inhabited` default there. -/
noncomputable def init_swarm (inits : List (List ℝ × List ℝ)) : Swarm :=
  let ps := inits.map initParticle
  { particles := ps
    gbest_x := ps.headI.x
    gbest := ps.headI.pbest }

/-! ## Helper lemmas about the fitness function -/

lemma foldl_add_eq_sum (f : ℝ → ℝ) :
    ∀ (l : List ℝ) (a : ℝ), l.foldl (fun s t => s + f t) a = a + (l.map f).sum := by
  intro l
  induction l with
  | nil => intro a; simp
  | cons t l ih =>
      intro a
      simp [List.foldl_cons, ih (a + f t)]
      ring

lemma rastrigin_eq (x : List ℝ) : rastrigin x = rastriginSpec x := by
  unfold rastrigin rastriginSpec
  rw [foldl_add_eq_sum]
  ring

lemma rastrigin_nil : rastrigin [] = 0 := by
  simp [rastrigin]

lemma sum_map_ge (l : List ℝ) :
    -10 * (l.length : ℝ) ≤ (l.map (fun t => t ^ 2 - 10 * Real.cos (2 * Real.pi * t))).sum := by
  induction l with
  | nil => simp
  | cons t l ih =>
      have hc : Real.cos (2 * Real.pi * t) ≤ 1 := Real.cos_le_one _
      have ht : (0 : ℝ) ≤ t ^ 2 := sq_nonneg t
      simp only [List.map_cons, List.sum_cons, List.length_cons]
      push_cast
      nlinarith

lemma rastrigin_nonneg (x : List ℝ) : 0 ≤ rastrigin x := by
  rw [rastrigin_eq]
  unfold rastriginSpec
  have := sum_map_ge x
  linarith

lemma rastrigin_zero_single : rastrigin [(0 : ℝ)] = 0 := by
  simp [rastrigin, Real.cos_zero]

lemma sum_map_le (l : List ℝ) (h : ∀ t ∈ l, -1 ≤ t ∧ t ≤ 1) :
    (l.map (fun t => t ^ 2 - 10 * Real.cos (2 * Real.pi * t))).sum ≤
      11 * (l.length : ℝ) := by
  induction l with
  | nil => simp
  | cons t l ih =>
      have ht := h t (List.mem_cons_self t l)
      have hc : -1 ≤ Real.cos (2 * Real.pi * t) := Real.neg_one_le_cos _
      have hrest := ih (fun q hq => h q (List.mem_cons_of_mem t hq))
      have hsq : t ^ 2 ≤ 1 := by nlinarith [ht.1, ht.2]
      simp only [List.map_cons, List.sum_cons, List.length_cons]
      push_cast
      nlinarith

lemma rastrigin_le_21 (x : List ℝ) (h : ∀ t ∈ x, -1 ≤ t ∧ t ≤ 1) :
    rastrigin x ≤ 21 * (x.length : ℝ) := by
  rw [rastrigin_eq]
  unfold rastriginSpec
  have := sum_map_le x h
  linarith

/-! ## Helper lemmas about the dimension loop -/

lemma updateDims_nil (cfg : Config) (r1 r2 : ℝ) :
    updateDims cfg r1 r2 [] = ([], [], false) := rfl

lemma updateDims_cons (cfg : Config) (r1 r2 x vx px gx : ℝ)
    (rest : List (ℝ × ℝ × ℝ × ℝ)) :
    updateDims cfg r1 r2 ((x, vx, px, gx) :: rest) =
      ((stepDim cfg r1 r2 x vx px gx).1 :: (updateDims cfg r1 r2 rest).1,
       (stepDim cfg r1 r2 x vx px gx).2.1 :: (updateDims cfg r1 r2 rest).2.1,
       (stepDim cfg r1 r2 x vx px gx).2.2 || (updateDims cfg r1 r2 rest).2.2) := rfl

lemma updateDims_getD (cfg : Config) (r1 r2 : ℝ) (xs : List ℝ) :
    ∀ (vs ps gs : List ℝ) (d : ℕ), vs.length = xs.length → ps.length = xs.length →
      gs.length = xs.length → d < xs.length →
      (updateDims cfg r1 r2 (zip4 xs vs ps gs)).1.getD d 0 =
          (stepDim cfg r1 r2 (xs.getD d 0) (vs.getD d 0) (ps.getD d 0) (gs.getD d 0)).1 ∧
        (updateDims cfg r1 r2 (zip4 xs vs ps gs)).2.1.getD d 0 =
          (stepDim cfg r1 r2 (xs.getD d 0) (vs.getD d 0) (ps.getD d 0) (gs.getD d 0)).2.1 := by
  induction xs with
  | nil => intro vs ps gs d _ _ _ hd; simp at hd
  | cons x xs ih =>
      intro vs ps gs d hv hp hg hd
      cases vs with
      | nil => simp at hv
      | cons v vs =>
        cases ps with
        | nil => simp at hp
        | cons p ps =>
          cases gs with
          | nil => simp at hg
          | cons g gs =>
            cases d with
            | zero => simp [zip4, updateDims_cons]
            | succ d =>
                simp only [zip4, updateDims_cons, List.getD_cons_succ]
                exact ih vs ps gs d (by simpa using hv) (by simpa using hp)
                  (by simpa using hg) (by simpa using hd)

lemma updateParticle_x (cfg : Config) (r1 r2 : ℝ) (gx : List ℝ) (g : ℝ) (p : Particle) :
    (updateParticle cfg r1 r2 gx g p).1.x =
      (updateDims cfg r1 r2 (zip4 p.x p.vx p.pbest_x gx)).1 := rfl

lemma updateParticle_vx (cfg : Config) (r1 r2 : ℝ) (gx : List ℝ) (g : ℝ) (p : Particle) :
    (updateParticle cfg r1 r2 gx g p).1.vx =
      (updateDims cfg r1 r2 (zip4 p.x p.vx p.pbest_x gx)).2.1 := rfl

lemma stepDim_pos_mem (cfg : Config) (r1 r2 x vx px gx : ℝ)
    (h : cfg.lower_bound ≤ cfg.upper_bound) :
    cfg.lower_bound ≤ (stepDim cfg r1 r2 x vx px gx).1 ∧
      (stepDim cfg r1 r2 x vx px gx).1 ≤ cfg.upper_bound := by
  unfold stepDim
  dsimp only
  split_ifs with h1 h2
  · exact ⟨le_refl _, h⟩
  · exact ⟨h, le_refl _⟩
  · exact ⟨not_lt.mp h1, not_lt.mp h2⟩

lemma stepDim_pen_vel (cfg : Config) (r1 r2 x vx px gx : ℝ)
    (h : (stepDim cfg r1 r2 x vx px gx).2.2 = true) :
    (stepDim cfg r1 r2 x vx px gx).2.1 = 0 := by
  unfold stepDim at h ⊢
  dsimp only at h ⊢
  split_ifs at h ⊢ <;> simp_all

lemma updateDims_pen_iff (cfg : Config) (r1 r2 : ℝ) (l : List (ℝ × ℝ × ℝ × ℝ)) :
    (updateDims cfg r1 r2 l).2.2 = true ↔
      ∃ q ∈ l, (stepDim cfg r1 r2 q.1 q.2.1 q.2.2.1 q.2.2.2).2.2 = true := by
  induction l with
  | nil => simp [updateDims_nil]
  | cons q l ih =>
      obtain ⟨x, vx, px, gx⟩ := q
      rw [updateDims_cons]
      simp only [Bool.or_eq_true, ih, List.mem_cons]
      constructor
      · rintro (hq | ⟨q, hq, hs⟩)
        · exact ⟨(x, vx, px, gx), Or.inl rfl, hq⟩
        · exact ⟨q, Or.inr hq, hs⟩
      · rintro ⟨q, hq | hq, hs⟩
        · subst hq; exact Or.inl hs
        · exact Or.inr ⟨q, hq, hs⟩

lemma sweepGo_nil (cfg : Config) (rand : ℕ → ℝ × ℝ) (i : ℕ) (gx : List ℝ) (g : ℝ) :
    sweepGo cfg rand i [] gx g = ([], gx, g) := rfl

lemma sweepGo_cons (cfg : Config) (rand : ℕ → ℝ × ℝ) (i : ℕ) (p : Particle)
    (ps : List Particle) (gx : List ℝ) (g : ℝ) :
    sweepGo cfg rand i (p :: ps) gx g =
      ((updateParticle cfg (rand i).1 (rand i).2 gx g p).1 ::
          (sweepGo cfg rand (i + 1) ps (updateParticle cfg (rand i).1 (rand i).2 gx g p).2.1
            (updateParticle cfg (rand i).1 (rand i).2 gx g p).2.2).1,
        (sweepGo cfg rand (i + 1) ps (updateParticle cfg (rand i).1 (rand i).2 gx g p).2.1
          (updateParticle cfg (rand i).1 (rand i).2 gx g p).2.2).2.1,
        (sweepGo cfg rand (i + 1) ps (updateParticle cfg (rand i).1 (rand i).2 gx g p).2.1
          (updateParticle cfg (rand i).1 (rand i).2 gx g p).2.2).2.2) := rfl

lemma run_pso_nil (cfg : Config) (s : Swarm) : run_pso cfg [] s = s := rfl

lemma run_pso_cons (cfg : Config) (r : ℕ → ℝ × ℝ) (rs : List (ℕ → ℝ × ℝ)) (s : Swarm) :
    run_pso cfg (r :: rs) s = run_pso cfg rs (sweep cfg r s) := rfl

lemma updateParticle_gbest_le (cfg : Config) (r1 r2 : ℝ) (gx : List ℝ) (g : ℝ)
    (p : Particle) : (updateParticle cfg r1 r2 gx g p).2.2 ≤ g := by
  unfold updateParticle
  dsimp only
  split_ifs <;> linarith

lemma sweepGo_gbest_le (cfg : Config) (rand : ℕ → ℝ × ℝ) (l : List Particle) :
    ∀ (i : ℕ) (gx : List ℝ) (g : ℝ), (sweepGo cfg rand i l gx g).2.2 ≤ g := by
  induction l with
  | nil => intro i gx g; rw [sweepGo_nil]
  | cons p ps ih =>
      intro i gx g
      rw [sweepGo_cons]
      exact le_trans (ih (i + 1) _ _) (updateParticle_gbest_le cfg _ _ gx g p)

lemma sweep_gbest_le (cfg : Config) (rand : ℕ → ℝ × ℝ) (s : Swarm) :
    (sweep cfg rand s).gbest ≤ s.gbest :=
  sweepGo_gbest_le cfg rand s.particles 0 s.gbest_x s.gbest

lemma updateParticle_pbest_inv (cfg : Config) (r1 r2 : ℝ) (gx : List ℝ) (g : ℝ)
    (p : Particle) (h1 : p.pbest = rastrigin p.pbest_x)
    (h2 : p.pbest < cfg.penalty_factor) :
    (updateParticle cfg r1 r2 gx g p).1.pbest =
        rastrigin (updateParticle cfg r1 r2 gx g p).1.pbest_x ∧
      (updateParticle cfg r1 r2 gx g p).1.pbest < cfg.penalty_factor := by
  unfold updateParticle
  dsimp only
  by_cases hb : (updateDims cfg r1 r2 (zip4 p.x p.vx p.pbest_x gx)).2.2 = true
  · have hraw := rastrigin_nonneg (updateDims cfg r1 r2 (zip4 p.x p.vx p.pbest_x gx)).1
    simp only [if_pos hb]
    have hnot : ¬ (rastrigin (updateDims cfg r1 r2 (zip4 p.x p.vx p.pbest_x gx)).1 +
        cfg.penalty_factor < p.pbest) := by linarith
    simp only [if_neg hnot]
    exact ⟨h1, h2⟩
  · simp only [if_neg hb]
    by_cases hlt : rastrigin (updateDims cfg r1 r2 (zip4 p.x p.vx p.pbest_x gx)).1 < p.pbest
    · simp only [if_pos hlt]
      exact ⟨trivial, lt_trans hlt h2⟩
    · simp only [if_neg hlt]
      exact ⟨h1, h2⟩

lemma sweepGo_pbest_inv (cfg : Config) (rand : ℕ → ℝ × ℝ) (l : List Particle) :
    ∀ (i : ℕ) (gx : List ℝ) (g : ℝ),
      (∀ p ∈ l, p.pbest = rastrigin p.pbest_x ∧ p.pbest < cfg.penalty_factor) →
      ∀ p ∈ (sweepGo cfg rand i l gx g).1,
        p.pbest = rastrigin p.pbest_x ∧ p.pbest < cfg.penalty_factor := by
  induction l with
  | nil => intro i gx g _ p hp; rw [sweepGo_nil] at hp; simp at hp
  | cons q l ih =>
      intro i gx g hl p hp
      rw [sweepGo_cons] at hp
      rcases List.mem_cons.mp hp with h | h
      · subst h
        exact updateParticle_pbest_inv cfg _ _ gx g q
          (hl q (List.mem_cons_self q l)).1 (hl q (List.mem_cons_self q l)).2
      · exact ih (i + 1) _ _ (fun p hp => hl p (List.mem_cons_of_mem q hp)) p h

lemma sweep_pbest_inv (cfg : Config) (rand : ℕ → ℝ × ℝ) (s : Swarm)
    (hs : ∀ p ∈ s.particles, p.pbest = rastrigin p.pbest_x ∧ p.pbest < cfg.penalty_factor) :
    ∀ p ∈ (sweep cfg rand s).particles,
      p.pbest = rastrigin p.pbest_x ∧ p.pbest < cfg.penalty_factor :=
  sweepGo_pbest_inv cfg rand s.particles 0 s.gbest_x s.gbest hs

lemma run_pbest_inv (cfg : Config) (rands : List (ℕ → ℝ × ℝ)) :
    ∀ s : Swarm,
      (∀ p ∈ s.particles, p.pbest = rastrigin p.pbest_x ∧ p.pbest < cfg.penalty_factor) →
      ∀ p ∈ (run_pso cfg rands s).particles,
        p.pbest = rastrigin p.pbest_x ∧ p.pbest < cfg.penalty_factor := by
  induction rands with
  | nil => intro s hs; exact hs
  | cons r rs ih =>
      intro s hs
      rw [run_pso_cons]
      exact ih (sweep cfg r s) (sweep_pbest_inv cfg r s hs)

lemma init_pbest (inits : List (List ℝ × List ℝ)) :
    ∀ p ∈ (init_swarm inits).particles, p.pbest = rastrigin p.pbest_x := by
  intro p hp
  rcases List.mem_map.mp hp with ⟨pr, _, hpr⟩
  rw [← hpr]
  rfl

/-- A one-particle swarm in which the global best mirrors the particle's
personal best. -/
def singleSync (s : Swarm) : Prop :=
  ∃ p, s.particles = [p] ∧ s.gbest_x = p.pbest_x ∧ s.gbest = p.pbest

lemma updateParticle_sync (cfg : Config) (r1 r2 : ℝ) (p : Particle) :
    (updateParticle cfg r1 r2 p.pbest_x p.pbest p).2.1 =
        (updateParticle cfg r1 r2 p.pbest_x p.pbest p).1.pbest_x ∧
      (updateParticle cfg r1 r2 p.pbest_x p.pbest p).2.2 =
        (updateParticle cfg r1 r2 p.pbest_x p.pbest p).1.pbest := by
  unfold updateParticle
  dsimp only
  by_cases hlt : (if (updateDims cfg r1 r2 (zip4 p.x p.vx p.pbest_x p.pbest_x)).2.2 then
      rastrigin (updateDims cfg r1 r2 (zip4 p.x p.vx p.pbest_x p.pbest_x)).1 +
        cfg.penalty_factor
    else rastrigin (updateDims cfg r1 r2 (zip4 p.x p.vx p.pbest_x p.pbest_x)).1) < p.pbest
  · simp only [if_pos hlt]
    exact ⟨trivial, trivial⟩
  · simp only [if_neg hlt]
    exact ⟨trivial, trivial⟩

lemma sweep_sync (cfg : Config) (rand : ℕ → ℝ × ℝ) (s : Swarm)
    (h : singleSync s) : singleSync (sweep cfg rand s) := by
  obtain ⟨p, hp, hgx, hg⟩ := h
  have hu := updateParticle_sync cfg (rand 0).1 (rand 0).2 p
  refine ⟨(updateParticle cfg (rand 0).1 (rand 0).2 p.pbest_x p.pbest p).1, ?_, ?_, ?_⟩
  · show (sweepGo cfg rand 0 s.particles s.gbest_x s.gbest).1 = _
    rw [hp, hgx, hg, sweepGo_cons, sweepGo_nil]
  · show (sweepGo cfg rand 0 s.particles s.gbest_x s.gbest).2.1 = _
    rw [hp, hgx, hg, sweepGo_cons, sweepGo_nil]
    exact hu.1
  · show (sweepGo cfg rand 0 s.particles s.gbest_x s.gbest).2.2 = _
    rw [hp, hgx, hg, sweepGo_cons, sweepGo_nil]
    exact hu.2

lemma run_sync (cfg : Config) (rands : List (ℕ → ℝ × ℝ)) :
    ∀ s : Swarm, singleSync s → singleSync (run_pso cfg rands s) := by
  induction rands with
  | nil => intro s hs; exact hs
  | cons r rs ih =>
      intro s hs
      rw [run_pso_cons]
      exact ih (sweep cfg r s) (sweep_sync cfg r s hs)

/-- The shape invariant of claim C10: `N` particles, all vectors of
length `D`. -/
def goodShape (N D : ℕ) (s : Swarm) : Prop :=
  s.particles.length = N ∧ s.gbest_x.length = D ∧
    ∀ p ∈ s.particles, p.x.length = D ∧ p.vx.length = D ∧ p.pbest_x.length = D

lemma zip4_length : ∀ (as bs cs ds : List ℝ), bs.length = as.length →
    cs.length = as.length → ds.length = as.length →
    (zip4 as bs cs ds).length = as.length := by
  intro as
  induction as with
  | nil =>
      intro bs cs ds _ _ _
      cases bs <;> cases cs <;> cases ds <;> simp [zip4]
  | cons a as ih =>
      intro bs cs ds hb hc hd
      cases bs with
      | nil => simp at hb
      | cons b bs =>
        cases cs with
        | nil => simp at hc
        | cons c cs =>
          cases ds with
          | nil => simp at hd
          | cons d ds =>
            simp only [zip4, List.length_cons]
            rw [ih bs cs ds (by simpa using hb) (by simpa using hc) (by simpa using hd)]

lemma updateDims_length (cfg : Config) (r1 r2 : ℝ) :
    ∀ l : List (ℝ × ℝ × ℝ × ℝ), (updateDims cfg r1 r2 l).1.length = l.length ∧
      (updateDims cfg r1 r2 l).2.1.length = l.length := by
  intro l
  induction l with
  | nil => simp [updateDims_nil]
  | cons q l ih =>
      obtain ⟨x, vx, px, gx⟩ := q
      rw [updateDims_cons]
      simp only [List.length_cons]
      exact ⟨by rw [ih.1], by rw [ih.2]⟩

lemma updateParticle_shape (cfg : Config) (r1 r2 : ℝ) (gx : List ℝ) (g : ℝ)
    (p : Particle) (D : ℕ) (hx : p.x.length = D) (hv : p.vx.length = D)
    (hp : p.pbest_x.length = D) (hg : gx.length = D) :
    ((updateParticle cfg r1 r2 gx g p).1.x.length = D ∧
      (updateParticle cfg r1 r2 gx g p).1.vx.length = D ∧
      (updateParticle cfg r1 r2 gx g p).1.pbest_x.length = D) ∧
    (updateParticle cfg r1 r2 gx g p).2.1.length = D := by
  have hz : (zip4 p.x p.vx p.pbest_x gx).length = D := by
    rw [zip4_length p.x p.vx p.pbest_x gx (by rw [hv, hx]) (by rw [hp, hx]) (by rw [hg, hx])]
    exact hx
  have hres := updateDims_length cfg r1 r2 (zip4 p.x p.vx p.pbest_x gx)
  have h1 : (updateDims cfg r1 r2 (zip4 p.x p.vx p.pbest_x gx)).1.length = D := by
    rw [hres.1]; exact hz
  have h2 : (updateDims cfg r1 r2 (zip4 p.x p.vx p.pbest_x gx)).2.1.length = D := by
    rw [hres.2]; exact hz
  unfold updateParticle
  dsimp only
  refine ⟨⟨h1, h2, ?_⟩, ?_⟩
  · split_ifs <;> first | exact h1 | exact hp
  · split_ifs <;> first | exact h1 | exact hg

lemma sweepGo_shape (cfg : Config) (rand : ℕ → ℝ × ℝ) (D : ℕ) :
    ∀ (l : List Particle) (i : ℕ) (gx : List ℝ) (g : ℝ), gx.length = D →
      (∀ p ∈ l, p.x.length = D ∧ p.vx.length = D ∧ p.pbest_x.length = D) →
      (sweepGo cfg rand i l gx g).1.length = l.length ∧
      (sweepGo cfg rand i l gx g).2.1.length = D ∧
      (∀ p ∈ (sweepGo cfg rand i l gx g).1,
        p.x.length = D ∧ p.vx.length = D ∧ p.pbest_x.length = D) := by
  intro l
  induction l with
  | nil =>
      intro i gx g hgx _
      rw [sweepGo_nil]
      exact ⟨rfl, hgx, by simp⟩
  | cons q l ih =>
      intro i gx g hgx hl
      have hq := hl q (List.mem_cons_self q l)
      have hu := updateParticle_shape cfg (rand i).1 (rand i).2 gx g q D
        hq.1 hq.2.1 hq.2.2 hgx
      have hrest := ih (i + 1) (updateParticle cfg (rand i).1 (rand i).2 gx g q).2.1
        (updateParticle cfg (rand i).1 (rand i).2 gx g q).2.2 hu.2
        (fun p hp => hl p (List.mem_cons_of_mem q hp))
      rw [sweepGo_cons]
      refine ⟨?_, hrest.2.1, ?_⟩
      · simp only [List.length_cons]
        rw [hrest.1]
      · intro p hp
        rcases List.mem_cons.mp hp with h | h
        · subst h; exact hu.1
        · exact hrest.2.2 p h

lemma sweep_shape (cfg : Config) (rand : ℕ → ℝ × ℝ) (N D : ℕ) (s : Swarm)
    (h : goodShape N D s) : goodShape N D (sweep cfg rand s) := by
  obtain ⟨hN, hgx, hl⟩ := h
  have := sweepGo_shape cfg rand D s.particles 0 s.gbest_x s.gbest hgx hl
  exact ⟨by rw [show (sweep cfg rand s).particles.length =
      (sweepGo cfg rand 0 s.particles s.gbest_x s.gbest).1.length from rfl, this.1, hN],
    this.2.1, this.2.2⟩

lemma run_shape (cfg : Config) (N D : ℕ) (rands : List (ℕ → ℝ × ℝ)) :
    ∀ s : Swarm, goodShape N D s → goodShape N D (run_pso cfg rands s) := by
  induction rands with
  | nil => intro s hs; exact hs
  | cons r rs ih =>
      intro s hs
      rw [run_pso_cons]
      exact ih (sweep cfg r s) (sweep_shape cfg r N D s hs)

/-- Concrete configuration with the constant values of main.rs lines 7-12. -/
noncomputable def cfg0 : Config :=
  { c1 := 1.3, c2 := 1.1, w := 0.9, lower_bound := -1, upper_bound := 1,
    penalty_factor := 10000 }

/-- A concrete one-dimensional particle sitting at the origin. -/
noncomputable def p0 : Particle := ⟨[0], [0], [0], rastrigin [0]⟩

/-- A concrete one-particle swarm. -/
noncomputable def swarm0 : Swarm := ⟨[p0], [0], rastrigin [0]⟩

/-- A concrete random stream that always returns `(0, 0)`. -/
def rand0 : ℕ → ℝ × ℝ := fun _ => (0, 0)

/-! ## Claims -/

/-- C1: in every sweep, for every particle, the two uniform scalars `r1, r2`
are drawn once per particle and shared across all `D` dimensions, and for
each dimension `d` the new velocity is
`W*velocity[d] + C1*r1*(pbest_x[d] - x[d]) + C2*r2*(gbest_x[d] - x[d])`,
which is added to the position, before boundary handling is applied to
the result. -/
theorem C1_velocity_position_update (cfg : Config) (r1 r2 : ℝ) (gx : List ℝ) (g : ℝ)
    (p : Particle) (d : ℕ) (hv : p.vx.length = p.x.length)
    (hp : p.pbest_x.length = p.x.length) (hg : gx.length = p.x.length)
    (hd : d < p.x.length) :
    ((updateParticle cfg r1 r2 gx g p).1.x.getD d 0 =
      (let v := cfg.w * p.vx.getD d 0 + cfg.c1 * r1 * (p.pbest_x.getD d 0 - p.x.getD d 0)
          + cfg.c2 * r2 * (gx.getD d 0 - p.x.getD d 0)
       let x2 := p.x.getD d 0 + v
       if x2 < cfg.lower_bound then cfg.lower_bound
       else if x2 > cfg.upper_bound then cfg.upper_bound
       else x2)) ∧
    ((updateParticle cfg r1 r2 gx g p).1.vx.getD d 0 =
      (let v := cfg.w * p.vx.getD d 0 + cfg.c1 * r1 * (p.pbest_x.getD d 0 - p.x.getD d 0)
          + cfg.c2 * r2 * (gx.getD d 0 - p.x.getD d 0)
       let x2 := p.x.getD d 0 + v
       if x2 < cfg.lower_bound then 0
       else if x2 > cfg.upper_bound then 0
       else v)) := by
  have h := updateDims_getD cfg r1 r2 p.x p.vx p.pbest_x gx d hv hp hg hd
  rw [updateParticle_x, updateParticle_vx, h.1, h.2]
  unfold stepDim
  constructor
  · dsimp only
    split_ifs <;> rfl
  · dsimp only
    split_ifs <;> rfl

/-- Witness for C1 at a concrete one-dimensional particle at the origin with
`r1 = r2 = 0`: the update leaves position and velocity at `0`. -/
theorem C1_velocity_position_update_witness :
    (updateParticle cfg0 0 0 [0] 0 p0).1.x.getD 0 0 = 0 ∧
      (updateParticle cfg0 0 0 [0] 0 p0).1.vx.getD 0 0 = 0 := by
  have h := C1_velocity_position_update cfg0 0 0 [0] 0 p0 0 rfl rfl rfl (by simp [p0])
  constructor
  · rw [h.1]
    norm_num [p0, cfg0]
  · rw [h.2]
    norm_num [p0, cfg0]

/-- C2: for every position vector `x` of length `D`, the fitness function
returns `10*D + sum_i (x_i^2 - 10*cos(2*pi*x_i))`; it is a pure total
function of `x`. -/
theorem C2_rastrigin_contract (x : List ℝ) : rastrigin x = rastriginSpec x :=
  rastrigin_eq x

/-- C9: the fitness function applied to the empty position vector returns
exactly `0`. -/
theorem C9_rastrigin_empty : rastrigin ([] : List ℝ) = 0 := by
  simp [rastrigin]

/-- C3: after a single particle update step, no component of the particle's
position lies strictly outside `[lower_bound, upper_bound]`, and every
component that was clamped to a bound has its velocity component set to
`0`. -/
theorem C3_boundary_clamp (cfg : Config) (r1 r2 : ℝ) (gx : List ℝ) (g : ℝ)
    (p : Particle) (d : ℕ) (hv : p.vx.length = p.x.length)
    (hp : p.pbest_x.length = p.x.length) (hg : gx.length = p.x.length)
    (hd : d < p.x.length) (hlu : cfg.lower_bound ≤ cfg.upper_bound) :
    (cfg.lower_bound ≤ (updateParticle cfg r1 r2 gx g p).1.x.getD d 0 ∧
      (updateParticle cfg r1 r2 gx g p).1.x.getD d 0 ≤ cfg.upper_bound) ∧
    ((stepDim cfg r1 r2 (p.x.getD d 0) (p.vx.getD d 0) (p.pbest_x.getD d 0)
        (gx.getD d 0)).2.2 = true →
      (updateParticle cfg r1 r2 gx g p).1.vx.getD d 0 = 0) := by
  have h := updateDims_getD cfg r1 r2 p.x p.vx p.pbest_x gx d hv hp hg hd
  constructor
  · rw [updateParticle_x, h.1]
    exact stepDim_pos_mem cfg r1 r2 _ _ _ _ hlu
  · intro hc
    rw [updateParticle_vx, h.2]
    exact stepDim_pen_vel cfg r1 r2 _ _ _ _ hc

/-- Witness for C3 at a concrete one-dimensional particle at the origin:
the updated position component stays inside the bounds `[-1, 1]`. -/
theorem C3_boundary_clamp_witness :
    cfg0.lower_bound ≤ (updateParticle cfg0 0 0 [0] 0 p0).1.x.getD 0 0 ∧
      (updateParticle cfg0 0 0 [0] 0 p0).1.x.getD 0 0 ≤ cfg0.upper_bound :=
  (C3_boundary_clamp cfg0 0 0 [0] 0 p0 0 rfl rfl rfl (by simp [p0])
    (by norm_num [cfg0])).1

/-- C4: the fitness value used for both the personal-best and the
global-best comparison equals `rastrigin(position) + penalty_factor` when at
least one dimension was clamped during this particle's update, and equals
`rastrigin(position)` exactly otherwise. -/
theorem C4_penalized_fitness (cfg : Config) (r1 r2 : ℝ) (gx : List ℝ) (g : ℝ)
    (p : Particle) :
    ((updateParticle cfg r1 r2 gx g p).1.pbest =
      (if (if (updateDims cfg r1 r2 (zip4 p.x p.vx p.pbest_x gx)).2.2 then
            rastrigin (updateDims cfg r1 r2 (zip4 p.x p.vx p.pbest_x gx)).1 + cfg.penalty_factor
          else rastrigin (updateDims cfg r1 r2 (zip4 p.x p.vx p.pbest_x gx)).1) < p.pbest then
        (if (updateDims cfg r1 r2 (zip4 p.x p.vx p.pbest_x gx)).2.2 then
            rastrigin (updateDims cfg r1 r2 (zip4 p.x p.vx p.pbest_x gx)).1 + cfg.penalty_factor
          else rastrigin (updateDims cfg r1 r2 (zip4 p.x p.vx p.pbest_x gx)).1)
      else p.pbest)) ∧
    ((updateParticle cfg r1 r2 gx g p).2.2 =
      (if (if (updateDims cfg r1 r2 (zip4 p.x p.vx p.pbest_x gx)).2.2 then
            rastrigin (updateDims cfg r1 r2 (zip4 p.x p.vx p.pbest_x gx)).1 + cfg.penalty_factor
          else rastrigin (updateDims cfg r1 r2 (zip4 p.x p.vx p.pbest_x gx)).1) < g then
        (if (updateDims cfg r1 r2 (zip4 p.x p.vx p.pbest_x gx)).2.2 then
            rastrigin (updateDims cfg r1 r2 (zip4 p.x p.vx p.pbest_x gx)).1 + cfg.penalty_factor
          else rastrigin (updateDims cfg r1 r2 (zip4 p.x p.vx p.pbest_x gx)).1)
      else g)) ∧
    ((updateDims cfg r1 r2 (zip4 p.x p.vx p.pbest_x gx)).2.2 = true ↔
      ∃ q ∈ zip4 p.x p.vx p.pbest_x gx,
        (stepDim cfg r1 r2 q.1 q.2.1 q.2.2.1 q.2.2.2).2.2 = true) :=
  ⟨rfl, rfl, updateDims_pen_iff cfg r1 r2 (zip4 p.x p.vx p.pbest_x gx)⟩

/-- C6: for a fixed random stream, `global_best_fitness` is non-increasing:
each sweep can only lower it, and any number of sweeps leaves it at or below
its initial value. -/
theorem C6_gbest_monotone (cfg : Config) :
    (∀ (rand : ℕ → ℝ × ℝ) (s : Swarm), (sweep cfg rand s).gbest ≤ s.gbest) ∧
    (∀ (rands : List (ℕ → ℝ × ℝ)) (s : Swarm), (run_pso cfg rands s).gbest ≤ s.gbest) := by
  refine ⟨sweep_gbest_le cfg, ?_⟩
  intro rands
  induction rands with
  | nil => intro s; exact le_refl _
  | cons r rs ih =>
      intro s
      rw [run_pso_cons]
      exact le_trans (ih (sweep cfg r s)) (sweep_gbest_le cfg r s)

/-- C5: after initialization and after every particle update, every particle
satisfies `personal_best_fitness = rastrigin personal_best_position`, with
no penalty term in the stored value.  The update branch that would store a
penalized fitness can never win the comparison as long as the current
personal best is below `penalty_factor` (which holds from initialization on,
since `rastrigin` is nonnegative), so the stored value stays penalty-free. -/
theorem C5_pbest_fitness_invariant (cfg : Config) :
    (∀ inits : List (List ℝ × List ℝ), ∀ p ∈ (init_swarm inits).particles,
        p.pbest = rastrigin p.pbest_x) ∧
    (∀ (r1 r2 : ℝ) (gx : List ℝ) (g : ℝ) (p : Particle),
        p.pbest = rastrigin p.pbest_x → p.pbest < cfg.penalty_factor →
        (updateParticle cfg r1 r2 gx g p).1.pbest =
          rastrigin (updateParticle cfg r1 r2 gx g p).1.pbest_x ∧
        (updateParticle cfg r1 r2 gx g p).1.pbest < cfg.penalty_factor) ∧
    (∀ (rands : List (ℕ → ℝ × ℝ)) (inits : List (List ℝ × List ℝ)),
        (∀ pr ∈ inits, rastrigin pr.1 < cfg.penalty_factor) →
        ∀ p ∈ (run_pso cfg rands (init_swarm inits)).particles,
          p.pbest = rastrigin p.pbest_x) ∧
    (∀ (rands : List (ℕ → ℝ × ℝ)) (inits : List (List ℝ × List ℝ)),
        (∀ pr ∈ inits, pr.1.length ≤ 10 ∧
          ∀ t ∈ pr.1, cfg0.lower_bound ≤ t ∧ t ≤ cfg0.upper_bound) →
        ∀ p ∈ (run_pso cfg0 rands (init_swarm inits)).particles,
          p.pbest = rastrigin p.pbest_x) := by
  have main : ∀ (c : Config) (rands : List (ℕ → ℝ × ℝ))
      (inits : List (List ℝ × List ℝ)),
      (∀ pr ∈ inits, rastrigin pr.1 < c.penalty_factor) →
      ∀ p ∈ (run_pso c rands (init_swarm inits)).particles,
        p.pbest = rastrigin p.pbest_x := by
    intro c rands inits h0 p hp
    have hinit : ∀ p ∈ (init_swarm inits).particles,
        p.pbest = rastrigin p.pbest_x ∧ p.pbest < c.penalty_factor := by
      intro p hp
      rcases List.mem_map.mp hp with ⟨pr, hpr, hpr2⟩
      refine ⟨init_pbest inits p hp, ?_⟩
      rw [← hpr2]
      exact h0 pr hpr
    exact (run_pbest_inv c rands (init_swarm inits) hinit p hp).1
  refine ⟨init_pbest, updateParticle_pbest_inv cfg, main cfg, ?_⟩
  intro rands inits h0
  refine main cfg0 rands inits ?_
  intro pr hpr
  obtain ⟨hlen, hbd⟩ := h0 pr hpr
  have hbd2 : ∀ t ∈ pr.1, -1 ≤ t ∧ t ≤ 1 := by
    intro t ht
    have := hbd t ht
    simpa [cfg0] using this
  have h21 := rastrigin_le_21 pr.1 hbd2
  have hlen2 : (pr.1.length : ℝ) ≤ 10 := by exact_mod_cast hlen
  have hpf : cfg0.penalty_factor = 10000 := rfl
  rw [hpf]
  linarith

/-- Witness for C5 at a concrete particle at the origin with the constants
of main.rs: one update step keeps `pbest = rastrigin pbest_x`. -/
theorem C5_pbest_fitness_invariant_witness :
    (updateParticle cfg0 0 0 [0] 0 p0).1.pbest =
        rastrigin (updateParticle cfg0 0 0 [0] 0 p0).1.pbest_x ∧
      (updateParticle cfg0 0 0 [0] 0 p0).1.pbest < cfg0.penalty_factor :=
  (C5_pbest_fitness_invariant cfg0).2.1 0 0 [0] 0 p0 rfl
    (by show rastrigin [0] < cfg0.penalty_factor
        rw [rastrigin_zero_single]
        norm_num [cfg0])

/-- C7: immediately after initialization, the global best position and
fitness are seeded from particle 0's personal best alone (whatever the rest
of the swarm is), and every particle's personal best is a copy of its
initial position with its fitness. -/
theorem C7_init_seeds_from_first (xs vs : List ℝ) (rest : List (List ℝ × List ℝ)) :
    ((init_swarm ((xs, vs) :: rest)).gbest_x =
        (init_swarm ((xs, vs) :: rest)).particles.headI.pbest_x ∧
      (init_swarm ((xs, vs) :: rest)).gbest =
        (init_swarm ((xs, vs) :: rest)).particles.headI.pbest) ∧
    ((init_swarm ((xs, vs) :: rest)).gbest_x = xs ∧
      (init_swarm ((xs, vs) :: rest)).gbest = rastrigin xs) ∧
    (∀ p ∈ (init_swarm ((xs, vs) :: rest)).particles,
      p.pbest_x = p.x ∧ p.pbest = rastrigin p.x) := by
  refine ⟨⟨rfl, rfl⟩, ⟨rfl, rfl⟩, ?_⟩
  intro p hp
  rcases List.mem_map.mp hp with ⟨pr, _, hpr⟩
  rw [← hpr]
  exact ⟨rfl, rfl⟩

/-- C8: with a single particle (N = 1), the global best coincides with that
particle's personal best after initialization and after every completed
sweep of the update loop. -/
theorem C8_single_particle_sync (cfg : Config) :
    (∀ xs vs : List ℝ, singleSync (init_swarm [(xs, vs)])) ∧
    (∀ (rand : ℕ → ℝ × ℝ) (s : Swarm), singleSync s → singleSync (sweep cfg rand s)) ∧
    (∀ (rands : List (ℕ → ℝ × ℝ)) (s : Swarm), singleSync s →
      singleSync (run_pso cfg rands s)) := by
  refine ⟨?_, sweep_sync cfg, fun rands => run_sync cfg rands⟩
  intro xs vs
  exact ⟨initParticle (xs, vs), rfl, rfl, rfl⟩

/-- Witness for C8: the concrete one-particle swarm at the origin stays
synchronized after one sweep of the update loop. -/
theorem C8_single_particle_sync_witness :
    singleSync (run_pso cfg0 [rand0] swarm0) :=
  (C8_single_particle_sync cfg0).2.2 [rand0] swarm0 ⟨p0, rfl, rfl, rfl⟩

/-- C10: initialization with `N` draws of `D`-dimensional vectors produces a
swarm of `N` particles whose position, velocity, personal-best and
global-best vectors all have length `D`, and every sweep (and any number of
sweeps) preserves the particle count and all these lengths. -/
theorem C10_shape_preservation (N D : ℕ) (cfg : Config) :
    (∀ inits : List (List ℝ × List ℝ), inits ≠ [] → inits.length = N →
      (∀ pr ∈ inits, pr.1.length = D ∧ pr.2.length = D) →
      goodShape N D (init_swarm inits)) ∧
    (∀ (rand : ℕ → ℝ × ℝ) (s : Swarm), goodShape N D s →
      goodShape N D (sweep cfg rand s)) ∧
    (∀ (rands : List (ℕ → ℝ × ℝ)) (s : Swarm), goodShape N D s →
      goodShape N D (run_pso cfg rands s)) := by
  refine ⟨?_, fun rand s => sweep_shape cfg rand N D s,
    fun rands => run_shape cfg N D rands⟩
  intro inits hne hN hD
  cases inits with
  | nil => exact absurd rfl hne
  | cons pr rest =>
      have hall : ∀ p ∈ (init_swarm (pr :: rest)).particles,
          p.x.length = D ∧ p.vx.length = D ∧ p.pbest_x.length = D := by
        intro p hp
        rcases List.mem_map.mp hp with ⟨q, hq, hq2⟩
        have := hD q hq
        rw [← hq2]
        exact ⟨this.1, this.2, this.1⟩
      refine ⟨?_, ?_, hall⟩
      · show ((pr :: rest).map initParticle).length = N
        rw [List.length_map]
        exact hN
      · show (((pr :: rest).map initParticle).headI).x.length = D
        exact (hD pr (List.mem_cons_self pr rest)).1

/-- Witness for C10: the concrete one-particle, one-dimensional swarm keeps
its shape through a sweep of the update loop. -/
theorem C10_shape_preservation_witness :
    goodShape 1 1 (run_pso cfg0 [rand0] swarm0) :=
  (C10_shape_preservation 1 1 cfg0).2.2 [rand0] swarm0
    ⟨rfl, rfl, by
      intro p hp
      rcases List.mem_cons.mp hp with h | h
      · subst h; exact ⟨rfl, rfl, rfl⟩
      · simp at h⟩

end PSO
